import Mathlib

/-!
# MaxScale admin client (`maxscale/maxscale.go`)

A shallow embedding of the protocol layer of `maxscale.go`: the three-step
handshake of `Connect`, the sentinel framing loop shared by `ShowServers` and
`ListServers`, the table scrape of `ListServers`, the monitor fetch
`GetMaxInfoServers` and the two lookups.

Conventions of the embedding.

* A Go `string` / `[]byte` is a list of bytes, a byte is a natural number
  (`< 256` for real inputs; no theorem depends on the bound).
* A Go `error` is `Option GoString`: `none` is `nil`, `some msg` is
  `errors.New(msg)`.
* The network is an explicit script: each `reader.Read(buf)` consumes one
  `ReadResult`, every flushed write is appended to a trace.
-/

set_option linter.dupNamespace false

namespace Maxscale

/-! ## Bytes, strings, slices -/

/-- A byte of a Go string. -/
abbrev Byte := Nat

/-- A Go `string` or `[]byte`. -/
abbrev GoString := List Byte

/-- The bytes of an ASCII literal of the source. -/
def bytes (s : String) : GoString := s.toList.map Char.toNat

/-- A Go `error` value: `none` is `nil`. -/
abbrev GoError := Option GoString

/-- Go slice expression `b[lo:hi]` on a slice whose length equals its capacity:
`none` when the bounds check fails (a run-time panic). -/
def slice (b : List Byte) (lo hi : Int) : Option (List Byte) :=
  if 0 ≤ lo ∧ lo ≤ hi ∧ hi ≤ (b.length : Int) then
    some ((b.take hi.toNat).drop lo.toNat)
  else none

/-- `strings.HasSuffix(s, suffix)`. -/
def HasSuffix (s suffix : GoString) : Bool :=
  decide (suffix.length ≤ s.length) && (s.drop (s.length - suffix.length) == suffix)

/-- `strings.HasPrefix(s, p)`: used to state what "begins with" means. -/
def HasPrefix (s p : GoString) : Bool :=
  s.take p.length == p

/-! ## The connection -/

/-- One call of `reader.Read(buf)`: the bytes it delivered (`res` is their
number, they are copied to `buf[0:res]`) and whether `err != nil`. -/
structure ReadResult where
  data : List Byte
  err : Bool
deriving DecidableEq, Repr

/-- A successful read delivering `c`. -/
def ReadResult.ok (c : List Byte) : ReadResult := ⟨c, false⟩

/-- A failed read: no bytes, `err != nil`. -/
def ReadResult.fail : ReadResult := ⟨[], true⟩

/-- The buffer after `reader.Read(buf)` delivered `data`: the first
`len(data)` bytes are overwritten, the others keep their old content. -/
def readInto (buf data : List Byte) : List Byte :=
  data ++ buf.drop data.length

/-- `make([]byte, 80)`. -/
def newBuf : List Byte := List.replicate 80 0

/-- The receiver `MaxScale` (the `Conn` field is the scripted connection). -/
structure MaxScale where
  Host : GoString
  Port : GoString
  User : GoString
  Pass : GoString
deriving DecidableEq, Repr

/-- Constant `ErrorNegotiation`. -/
def ErrorNegotiation : GoString := bytes "Incorrect maxscale protocol negotiation"

/-- Constant `ErrorReader`. -/
def ErrorReader : GoString := bytes "Error reading from buffer"

/-- Message of the error returned when the pass-ack starts with `FAILED`. -/
def ErrorAuthentication : GoString := bytes "Authentication failed"

/-- Message built by `fmt.Sprintf("Connection failed to address %s", address)`. -/
def ErrorConnection (address : GoString) : GoString :=
  bytes "Connection failed to address " ++ address

/-! ## `Connect` -/

/-- What `Connect` leaves behind: the returned error, the writes flushed to
the connection (in order), how many of the scripted reads were performed,
whether `Conn.Close` was called (the source never calls it) and whether a
slice expression panicked. -/
structure ConnectResult where
  err : GoError
  writes : List GoString
  reads : Nat
  closed : Bool
  panicked : Bool
deriving DecidableEq, Repr

/-- `func (m *MaxScale) Connect() error`.
`dial` tells whether `net.DialTimeout` succeeded; `r1 r2 r3` are the results of
the (at most three) calls of `reader.Read(buf)`, all on the same 80-byte `buf`. -/
def Connect (m : MaxScale) (dial : Bool) (r1 r2 r3 : ReadResult) : ConnectResult :=
  let address := m.Host ++ bytes ":" ++ m.Port
  if !dial then
    ⟨some (ErrorConnection address), [], 0, false, false⟩
  else
    let buf := newBuf
    -- res, err := reader.Read(buf)
    let buf := readInto buf r1.data
    let res : Int := r1.data.length
    if r1.err then
      ⟨some ErrorReader, [], 1, false, false⟩
    else if res ≠ 4 then
      ⟨some ErrorNegotiation, [], 1, false, false⟩
    else
      -- fmt.Fprint(writer, m.User); writer.Flush()
      let writes := [m.User]
      -- res, err = reader.Read(buf)
      let buf := readInto buf r2.data
      let res : Int := r2.data.length
      if r2.err then
        ⟨some ErrorReader, writes, 2, false, false⟩
      else if res ≠ 8 then
        ⟨some ErrorNegotiation, writes, 2, false, false⟩
      else
        -- fmt.Fprint(writer, m.Pass); writer.Flush()
        let writes := writes ++ [m.Pass]
        -- res, err = reader.Read(buf)
        let buf := readInto buf r3.data
        if r3.err then
          ⟨some ErrorReader, writes, 3, false, false⟩
        else
          -- string(buf[0:6]) == "FAILED"
          match slice buf 0 6 with
          | none => ⟨none, writes, 3, false, true⟩
          | some s =>
            if s = bytes "FAILED" then
              ⟨some ErrorAuthentication, writes, 3, false, false⟩
            else
              ⟨none, writes, 3, false, false⟩

/-! ## `Command` and the framing loop of `ShowServers` / `ListServers` -/

/-- `func (m *MaxScale) Command(cmd string) error`: the command text is
written verbatim and flushed; the trace of writes grows by `cmd`. -/
def Command (writes : List GoString) (cmd : GoString) : List GoString :=
  writes ++ [cmd]

/-- Where the `for` loop of `ShowServers` / `ListServers` stands once the
scripted reads are used up or the loop has left. -/
inductive FrameOutcome where
  /-- `break` was reached: the accumulated `response` and the reads that were
  not consumed. -/
  | done (response : List Byte) (rest : List ReadResult)
  /-- Every scripted read was consumed and the loop has not left: it is
  about to call `reader.Read` again with this accumulator. -/
  | reading (response : List Byte)
  /-- A slice expression was out of range. -/
  | panicked
deriving DecidableEq, Repr

/-- The loop
```
for {
  res, err := reader.Read(buf)
  if err != nil {
  }
  str := string(buf[0:res])
  if res < 80 && strings.HasSuffix(str, "OK") {
    response = append(response, buf[0:res-2]...)
    break
  }
  response = append(response, buf[0:res]...)
}
```
run on a script of read results; `response` and `buf` are the loop-carried
variables. The error of a read is looked at by an empty `if` only. -/
def frameLoop (response buf : List Byte) : List ReadResult → FrameOutcome
  | [] => .reading response
  | r :: rs =>
    let buf := readInto buf r.data
    let res : Int := r.data.length
    -- if err != nil { }
    match slice buf 0 res with
    | none => .panicked
    | some str =>
      if res < 80 && HasSuffix str (bytes "OK") then
        match slice buf 0 (res - 2) with
        | none => .panicked
        | some s => .done (response ++ s) rs
      else
        match slice buf 0 res with
        | none => .panicked
        | some s => frameLoop (response ++ s) buf rs

/-- Result of `ShowServers` on a script of reads: `returned` carries the two
return values, the writes and the unconsumed reads; `pending` is a call that
has not returned after the whole script (it is inside `reader.Read`). -/
inductive ShowResult where
  | returned (response : List Byte) (err : GoError) (writes : List GoString)
      (rest : List ReadResult)
  | pending (response : List Byte) (writes : List GoString)
  | panicked
deriving DecidableEq, Repr

/-- `func (m *MaxScale) ShowServers() ([]byte, error)`. -/
def ShowServers (reads : List ReadResult) : ShowResult :=
  let writes := Command [] (bytes "show serversjson")
  match frameLoop [] newBuf reads with
  | .done response rest => .returned response none writes rest
  | .reading response => .pending response writes
  | .panicked => .panicked

/-! ## The line pattern of `ListServers`

`regexp.MustCompile` of
`^([0-9A-Za-z]+)[[:space:]]*\|[[:space:]]*([0-9A-Za-z]+)[[:space:]]*\|[[:space:]]*`.
The pattern is a sequence of atoms behind the anchor `^`. Go's `regexp`
returns the match a backtracking search finds first, a greedy repetition
trying the longest run first; `matchAtoms` is that search. -/

/-- Class `[0-9A-Za-z]`. -/
def isAlnum (b : Byte) : Bool :=
  (decide (48 ≤ b) && decide (b ≤ 57)) || (decide (65 ≤ b) && decide (b ≤ 90))
    || (decide (97 ≤ b) && decide (b ≤ 122))

/-- Class `[[:space:]]`, which is `[\t\n\v\f\r ]`. -/
def isSpace (b : Byte) : Bool :=
  (decide (9 ≤ b) && decide (b ≤ 13)) || b == 32

/-- The atoms the line pattern is made of. -/
inductive Atom where
  /-- A capturing group `([c]+)` over a byte class. -/
  | plusCap (cls : Byte → Bool)
  /-- A repetition `[c]*` of a byte class. -/
  | star (cls : Byte → Bool)
  /-- A literal byte. -/
  | lit (b : Byte)

/-- Greedy `[c]*` followed by the continuation `k`: the longest run is tried
first, one byte is given back each time the continuation fails. -/
def starLoop {α : Type} (cls : Byte → Bool) (k : List Byte → Option α) :
    List Byte → Option α
  | [] => k []
  | c :: cs =>
    if cls c then
      match starLoop cls k cs with
      | some r => some r
      | none => k (c :: cs)
    else k (c :: cs)

/-- Greedy repetition inside a capturing group: as `starLoop`, the bytes taken
so far are `acc` and are handed to the continuation as the group's text. -/
def capLoop {α : Type} (cls : Byte → Bool) (k : List Byte → List Byte → Option α) :
    List Byte → List Byte → Option α
  | acc, [] => k acc []
  | acc, c :: cs =>
    if cls c then
      match capLoop cls k (acc ++ [c]) cs with
      | some r => some r
      | none => k acc (c :: cs)
    else k acc (c :: cs)

/-- Backtracking match of a sequence of atoms at the start of the input:
the texts of the groups (in order) and the input left after the match. -/
def matchAtoms : List Atom → List (List Byte) → List Byte →
    Option (List (List Byte) × List Byte)
  | [], caps, inp => some (caps, inp)
  | .lit _ :: _, _, [] => none
  | .lit b :: as, caps, c :: cs => if c = b then matchAtoms as caps cs else none
  | .star cls :: as, caps, inp => starLoop cls (fun rest => matchAtoms as caps rest) inp
  | .plusCap _ :: _, _, [] => none
  | .plusCap cls :: as, caps, c :: cs =>
    if cls c then capLoop cls (fun g rest => matchAtoms as (caps ++ [g]) rest) [c] cs
    else none

/-- The compiled pattern `re` (anchored at the start of the line by `^`). -/
def re : List Atom :=
  [.plusCap isAlnum, .star isSpace, .lit 124, .star isSpace,
   .plusCap isAlnum, .star isSpace, .lit 124, .star isSpace]

/-- `re.FindStringSubmatch(line)`: `[]` (nil) when the line does not match,
else the whole match followed by the text of each group. -/
def FindStringSubmatch (re : List Atom) (line : GoString) : List GoString :=
  match matchAtoms re [] line with
  | none => []
  | some (caps, rest) => line.take (line.length - rest.length) :: caps

/-! ## `ListServers` -/

/-- Struct `Server`. -/
structure Server where
  Server : GoString
  Address : GoString
deriving DecidableEq, Repr

/-- Type `ServerList`. -/
abbrev ServerList := List Server

/-- `strings.Split(s, "\n")`: the pieces between the newlines, one more than
there are newlines. -/
def splitLines : GoString → List GoString
  | [] => [[]]
  | c :: cs =>
    if c = 10 then [] :: splitLines cs
    else
      match splitLines cs with
      | [] => [[c]]
      | l :: ls => (c :: l) :: ls

/-- The body of `for _, line := range list`: `sl` after the line. -/
def lineStep (sl : ServerList) (line : GoString) : ServerList :=
  let m := FindStringSubmatch re line
  if m.length > 0 then
    match m with
    | m0 :: m1 :: m2 :: _ =>
      if m0 ≠ bytes "" ∧ m1 ≠ bytes "Server" then
        sl ++ [{ Server := m1, Address := m2 }]
      else sl
    | _ => sl
  else sl

/-- Lines 162-174 of `ListServers`: the table scrape of the framed payload. -/
def parseServerList (response : List Byte) : ServerList :=
  let list := splitLines response
  list.foldl lineStep []

/-- Result of `ListServers` on a script of reads, as `ShowResult`. -/
inductive ListResult where
  | returned (sl : ServerList) (err : GoError) (writes : List GoString)
      (rest : List ReadResult)
  | pending (response : List Byte) (writes : List GoString)
  | panicked
deriving DecidableEq, Repr

/-- `func (m *MaxScale) ListServers() (ServerList, error)`. -/
def ListServers (reads : List ReadResult) : ListResult :=
  let writes := Command [] (bytes "list servers")
  match frameLoop [] newBuf reads with
  | .done response rest => .returned (parseServerList response) none writes rest
  | .reading response => .pending response writes
  | .panicked => .panicked

/-- `func (sl ServerList) GetServer(ip string) string`. -/
def GetServer : ServerList → GoString → GoString
  | [], _ => bytes ""
  | s :: sl, ip => if s.Address = ip then s.Server else GetServer sl ip

/-! ## The monitor snapshot -/

/-- Struct `ServerMaxinfo`; Go `int` fields are integers. -/
structure ServerMaxinfo where
  Server : GoString
  Address : GoString
  Port : Int
  Connections : Int
  Status : GoString
deriving DecidableEq, Repr

/-- The scan of `GetMaxInfoServer` over the package variable `ServerMaxinfos`
(passed as the first argument). -/
def GetMaxInfoServer : List ServerMaxinfo → GoString → Int → GoString × GoString × Int
  | [], _, _ => (bytes "", bytes "", 0)
  | s :: rest, ip, port =>
    if s.Address = ip ∧ s.Port = port then (s.Server, s.Status, s.Connections)
    else GetMaxInfoServer rest ip port

/-- What the HTTP exchange of `GetMaxInfoServers` yields before the body is
decoded: one of the three failures, or the body read by `ioutil.ReadAll`. -/
inductive HttpResult where
  | requestError
  | doError
  | readError
  | body (monjson : List Byte)
deriving DecidableEq, Repr

/-- Result of `GetMaxInfoServers`: `fatal` is `log.Fatal` (the process exits,
nothing is returned); `returned` carries the two return values and the value
of the package variable `ServerMaxinfos` afterwards. -/
inductive FetchResult where
  | fatal
  | returned (list : List ServerMaxinfo) (err : GoError) (snapshot : List ServerMaxinfo)
deriving DecidableEq, Repr

/-- `func (m *MaxScale) GetMaxInfoServers(url string) ([]ServerMaxinfo, error)`.
`unmarshal monjson v` stands for `json.Unmarshal(monjson, &v)` of the library
`encoding/json`: the value of `v` afterwards and the returned error.
`snapshot` is `ServerMaxinfos` before the call. -/
def GetMaxInfoServers
    (unmarshal : List Byte → List ServerMaxinfo → List ServerMaxinfo × GoError)
    (http : HttpResult) (snapshot : List ServerMaxinfo) : FetchResult :=
  match http with
  | .requestError => .fatal
  | .doError => .fatal
  | .readError => .fatal
  | .body monjson =>
    -- if err := json.Unmarshal(monjson, &ServerMaxinfos); err != nil { log.Println(err) }
    let snapshot := (unmarshal monjson snapshot).1
    -- return ServerMaxinfos, nil
    .returned snapshot none snapshot

/-! ## Library `encoding/json`: `json.Unmarshal` into `[]ServerMaxinfo`

`GetMaxInfoServers` hands the package variable itself to `json.Unmarshal`.
The decoder first scans the whole body for validity and stores nothing when
the scan fails. For a JSON array it then walks the elements: element `i` is
decoded into entry `i` of the slice's backing array as it stands (the old
record, within the old length; whatever lies between length and capacity;
a zero value past the capacity), and an object stores only the members it
has, so a field without a member keeps the value that entry held. The slice
ends with as many entries as the array has elements. -/

/-- One member of a JSON object of the body whose key names a field of
`ServerMaxinfo` and whose value has the type of the field. -/
inductive FieldValue where
  | server (v : GoString)
  | address (v : GoString)
  | port (v : Int)
  | connections (v : Int)
  | status (v : GoString)
deriving DecidableEq, Repr

/-- A body that passed the validity scan and is a JSON array: per element, the
members of the object in the order of the text. Members with other keys or
with the value `null` store nothing and are left out; the element `null`
has no members. -/
abbrev JsonArray := List (List FieldValue)

/-- The zero value of `ServerMaxinfo`. -/
def zeroServerMaxinfo : ServerMaxinfo :=
  { Server := [], Address := [], Port := 0, Connections := 0, Status := [] }

/-- Storing one member into a struct value. -/
def setField (t : ServerMaxinfo) : FieldValue → ServerMaxinfo
  | .server v => { t with Server := v }
  | .address v => { t with Address := v }
  | .port v => { t with Port := v }
  | .connections v => { t with Connections := v }
  | .status v => { t with Status := v }

/-- Decoding a JSON object into an existing struct value: the members are
stored one after the other, the other fields are not touched. -/
def decodeObject (members : List FieldValue) (t : ServerMaxinfo) : ServerMaxinfo :=
  members.foldl setField t

/-- Decoding a JSON array into a slice whose backing array holds `backing`:
element `i` is decoded into entry `i`, into a zero value once the backing
array is used up; the result has one entry per element. -/
def decodeArray : JsonArray → List ServerMaxinfo → List ServerMaxinfo
  | [], _ => []
  | o :: os, [] => decodeObject o zeroServerMaxinfo :: decodeArray os []
  | o :: os, t :: ts => decodeObject o t :: decodeArray os ts

/-- `json.Unmarshal(monjson, &v)` for `v` of type `[]ServerMaxinfo`.
`scan monjson` is the validity scan and lexing of the body (`none`: the body
is rejected and `v` is not touched; the text of the error is not modelled),
`spare` is what the backing array of `v` holds between length and capacity.
Bodies that fail only part-way through the decoding are not represented. -/
def jsonUnmarshal (scan : List Byte → Option JsonArray) (spare : List ServerMaxinfo) :
    List Byte → List ServerMaxinfo → List ServerMaxinfo × GoError :=
  fun monjson v =>
    match scan monjson with
    | none => (v, some (bytes "invalid character"))
    | some doc => (decodeArray doc (v ++ spare), none)

/-- The body of the monitor example: one object with all five members. -/
def bodyComplete : List Byte :=
  bytes "[\x7b\"server\":\"n1\",\"address\":\"10.0.0.2\",\"port\":3306,\"connections\":5,\"status\":\"Running\"\x7d]"

/-- A body whose one object has the member `server` only. -/
def bodyServerOnly : List Byte :=
  bytes "[\x7b\"server\":\"n1\"\x7d]"

/-- The lexing of `bodyComplete` and `bodyServerOnly`, the two bodies of the
concrete runs; this table knows no other body. The general statements take the
scan as a parameter. -/
def scanDemo (monjson : List Byte) : Option JsonArray :=
  if monjson = bodyComplete then
    some [[.server (bytes "n1"), .address (bytes "10.0.0.2"), .port 3306, .connections 5,
      .status (bytes "Running")]]
  else if monjson = bodyServerOnly then
    some [[.server (bytes "n1")]]
  else none

/-- The address and credentials used in the concrete runs of the theorems. -/
def demoSession : MaxScale :=
  { Host := bytes "127.0.0.1", Port := bytes "6603",
    User := bytes "admin", Pass := bytes "mariadb" }

/-! ## Facts about slices and the buffer -/

theorem slice_readInto (buf data : List Byte) :
    slice (readInto buf data) 0 (data.length : Int) = some data := by
  unfold slice readInto
  have h : (0 : Int) ≤ 0 ∧ (0 : Int) ≤ (data.length : Int) ∧
      (data.length : Int) ≤ ((data ++ List.drop data.length buf).length : Int) := by
    refine ⟨le_refl _, by omega, ?_⟩
    simp
  rw [if_pos h]
  simp

theorem slice_readInto_sub_two (buf data : List Byte) (h2 : 2 ≤ data.length) :
    slice (readInto buf data) 0 ((data.length : Int) - 2) =
      some (data.take (data.length - 2)) := by
  unfold slice readInto
  have h : (0 : Int) ≤ 0 ∧ (0 : Int) ≤ (data.length : Int) - 2 ∧
      (data.length : Int) - 2 ≤ ((data ++ List.drop data.length buf).length : Int) := by
    refine ⟨le_refl _, by omega, ?_⟩
    simp only [List.length_append, Nat.cast_add]
    omega
  rw [if_pos h]
  have e : ((data.length : Int) - 2).toNat = data.length - 2 := by omega
  rw [e]
  simp only [Int.toNat_zero, List.drop_zero]
  rw [List.take_append_of_le_length (by omega)]

theorem HasSuffix_two_le (s suffix : GoString) (h : HasSuffix s suffix = true) :
    suffix.length ≤ s.length := by
  unfold HasSuffix at h
  simp only [Bool.and_eq_true, decide_eq_true_eq] at h
  exact h.1

theorem bytes_OK_length : (bytes "OK").length = 2 := by decide

/-! ## One turn of the framing loop -/

theorem frameLoop_continue (response buf : List Byte) (r : ReadResult) (rs : List ReadResult)
    (h : ¬ (r.data.length < 80 ∧ HasSuffix r.data (bytes "OK") = true)) :
    frameLoop response buf (r :: rs) =
      frameLoop (response ++ r.data) (readInto buf r.data) rs := by
  rw [frameLoop]
  simp only [slice_readInto]
  have hc : ((r.data.length : Int) < 80 && HasSuffix r.data (bytes "OK")) = false := by
    rcases Bool.eq_false_or_eq_true
      ((r.data.length : Int) < 80 && HasSuffix r.data (bytes "OK")) with hb | hb
    · exfalso
      simp only [Bool.and_eq_true, decide_eq_true_eq] at hb
      exact h ⟨by omega, hb.2⟩
    · exact hb
  rw [hc]
  simp

theorem frameLoop_break (response buf : List Byte) (r : ReadResult) (rs : List ReadResult)
    (hlen : r.data.length < 80) (hok : HasSuffix r.data (bytes "OK") = true) :
    frameLoop response buf (r :: rs) =
      .done (response ++ r.data.take (r.data.length - 2)) rs := by
  rw [frameLoop]
  simp only [slice_readInto]
  have h2 : 2 ≤ r.data.length := by
    have := HasSuffix_two_le _ _ hok
    rwa [bytes_OK_length] at this
  have hc : ((r.data.length : Int) < 80 && HasSuffix r.data (bytes "OK")) = true := by
    simp only [Bool.and_eq_true, decide_eq_true_eq]
    exact ⟨by omega, hok⟩
  rw [hc]
  simp only [if_true, slice_readInto_sub_two buf r.data h2]

/-- The loop over chunks none of which is terminal, followed by more reads. -/
theorem frameLoop_chunks (pre : List (List Byte)) (response buf : List Byte)
    (rs : List ReadResult)
    (hpre : ∀ c ∈ pre, ¬ (c.length < 80 ∧ HasSuffix c (bytes "OK") = true)) :
    ∃ buf', frameLoop response buf (pre.map ReadResult.ok ++ rs) =
      frameLoop (response ++ pre.flatten) buf' rs := by
  induction pre generalizing response buf with
  | nil => exact ⟨buf, by simp⟩
  | cons c cs ih =>
    have hc := hpre c (List.mem_cons_self _ _)
    obtain ⟨buf', hb⟩ := ih (response ++ c) (readInto buf c)
      (fun d hd => hpre d (List.mem_cons_of_mem _ hd))
    refine ⟨buf', ?_⟩
    rw [List.map_cons, List.cons_append, frameLoop_continue _ _ _ _ hc]
    simp only [ReadResult.ok] at hb ⊢
    rw [hb]
    simp [List.append_assoc]

theorem frameLoop_framing (pre : List (List Byte)) (last : List Byte)
    (later : List ReadResult)
    (hpre : ∀ c ∈ pre, ¬ (c.length < 80 ∧ HasSuffix c (bytes "OK") = true))
    (hlen : last.length < 80) (hok : HasSuffix last (bytes "OK") = true) :
    frameLoop [] newBuf (pre.map ReadResult.ok ++ ReadResult.ok last :: later) =
      .done ((pre.flatten ++ last).take ((pre.flatten ++ last).length - 2)) later := by
  obtain ⟨buf', hb⟩ := frameLoop_chunks pre [] newBuf (ReadResult.ok last :: later) hpre
  rw [hb, frameLoop_break _ _ _ _ hlen hok]
  have h2 : 2 ≤ last.length := by
    have := HasSuffix_two_le _ _ hok
    rwa [bytes_OK_length] at this
  simp only [ReadResult.ok, List.nil_append]
  congr 1
  rw [List.take_append_eq_append_take]
  have e1 : (pre.flatten ++ last).length - 2 - pre.flatten.length = last.length - 2 := by
    simp only [List.length_append]; omega
  have e2 : pre.flatten.length ≤ (pre.flatten ++ last).length - 2 := by
    simp only [List.length_append]; omega
  rw [e1, List.take_of_length_le e2]

/-! ## Handshake -/

/-- When the third read delivers at least six bytes, `buf[0:6]` is the start of
the reply and `Connect` decides on the reply alone. -/
theorem Connect_passAck_six (m : MaxScale) (g a P : List Byte)
    (hg : g.length = 4) (ha : a.length = 8) (hP : 6 ≤ P.length) :
    (Connect m true (.ok g) (.ok a) (.ok P)).err =
      if HasPrefix P (bytes "FAILED") = true then some ErrorAuthentication else none := by
  have h6 : (bytes "FAILED").length = 6 := by decide
  have hs : slice (readInto (readInto (readInto newBuf g) a) P) 0 6 = some (P.take 6) := by
    unfold slice readInto
    have h : (0 : Int) ≤ 0 ∧ (0 : Int) ≤ 6 ∧ (6 : Int) ≤
        ((P ++ List.drop P.length (a ++ List.drop a.length (g ++ List.drop g.length newBuf))).length
          : Int) := by
      refine ⟨le_refl _, by omega, ?_⟩
      simp only [List.length_append, Nat.cast_add]
      omega
    rw [if_pos h]
    have e : (6 : Int).toNat = 6 := rfl
    have e0 : (0 : Int).toNat = 0 := rfl
    rw [e, e0, List.drop_zero, List.take_append_of_le_length hP]
  simp only [Connect, ReadResult.ok, hg, ha, hs, HasPrefix, h6]
  by_cases hp : List.take 6 P = bytes "FAILED" <;> simp [hp]

/-- Claim C1, at the input where it fails: after the greeting `abcd` and the
8-byte user-ack `FAILEDxx`, the 1-byte pass-ack `F` does not begin with the 6
bytes `FAILED`, yet `Connect` returns the authentication error, because
`buf[0:6]` still holds bytes 1..5 of the user-ack. -/
theorem Connect_stale_buffer_rejects :
    HasPrefix (bytes "F") (bytes "FAILED") = false ∧
    Connect demoSession true (.ok (bytes "abcd")) (.ok (bytes "FAILEDxx")) (.ok (bytes "F")) =
      { err := some ErrorAuthentication, writes := [bytes "admin", bytes "mariadb"],
        reads := 3, closed := false, panicked := false } := by
  decide

/-- Claim C4: when the dial succeeds and the first read succeeds with a byte
count other than 4, `Connect` returns the negotiation error and nothing has
been written to the connection. -/
theorem Connect_greeting_length (m : MaxScale) (r1 r2 r3 : ReadResult)
    (hok : r1.err = false) (hlen : r1.data.length ≠ 4) :
    (Connect m true r1 r2 r3).err = some ErrorNegotiation ∧
    (Connect m true r1 r2 r3).err = some (bytes "Incorrect maxscale protocol negotiation") ∧
    (Connect m true r1 r2 r3).writes = [] := by
  have h : ¬ ((r1.data.length : Int) = 4) := by omega
  simp [Connect, hok, h, ErrorNegotiation]

/-- A 5-byte greeting: negotiation error, empty write trace. -/
theorem Connect_greeting_length_witness :
    (ReadResult.ok (bytes "hello")).err = false ∧
    (ReadResult.ok (bytes "hello")).data.length ≠ 4 ∧
    (Connect demoSession true (.ok (bytes "hello")) (.ok (bytes "12345678")) (.ok (bytes "OK"))).err
      = some ErrorNegotiation ∧
    (Connect demoSession true (.ok (bytes "hello")) (.ok (bytes "12345678")) (.ok (bytes "OK"))).writes
      = [] :=
  ⟨by decide, by decide,
    (Connect_greeting_length demoSession (.ok (bytes "hello")) (.ok (bytes "12345678"))
      (.ok (bytes "OK")) (by decide) (by decide)).1,
    (Connect_greeting_length demoSession (.ok (bytes "hello")) (.ok (bytes "12345678"))
      (.ok (bytes "OK")) (by decide) (by decide)).2.2⟩

/-- Claim C5: when the dial succeeds, the greeting read returns exactly 4
bytes and the second read succeeds with a byte count other than 8, `Connect`
returns the negotiation error whatever the bytes of the acknowledgement are,
and the only write performed is the user name: the password is not written. -/
theorem Connect_userAck_length (m : MaxScale) (r1 r2 r3 : ReadResult)
    (hok1 : r1.err = false) (hlen1 : r1.data.length = 4)
    (hok2 : r2.err = false) (hlen2 : r2.data.length ≠ 8) :
    (Connect m true r1 r2 r3).err = some ErrorNegotiation ∧
    (Connect m true r1 r2 r3).writes = [m.User] ∧
    (Connect m true r1 r2 r3).reads = 2 := by
  have h : ¬ ((r2.data.length : Int) = 8) := by omega
  simp [Connect, hok1, hlen1, hok2, h]

/-- A 7-byte user-ack after a 4-byte greeting: negotiation error, only the user
name written. -/
theorem Connect_userAck_length_witness :
    (ReadResult.ok (bytes "abcd")).err = false ∧
    (ReadResult.ok (bytes "abcd")).data.length = 4 ∧
    (ReadResult.ok (bytes "1234567")).err = false ∧
    (ReadResult.ok (bytes "1234567")).data.length ≠ 8 ∧
    (Connect demoSession true (.ok (bytes "abcd")) (.ok (bytes "1234567")) (.ok (bytes "OK"))).err
      = some ErrorNegotiation ∧
    (Connect demoSession true (.ok (bytes "abcd")) (.ok (bytes "1234567")) (.ok (bytes "OK"))).writes
      = [bytes "admin"] :=
  ⟨by decide, by decide, by decide, by decide,
    (Connect_userAck_length demoSession (.ok (bytes "abcd")) (.ok (bytes "1234567"))
      (.ok (bytes "OK")) (by decide) (by decide) (by decide) (by decide)).1,
    (Connect_userAck_length demoSession (.ok (bytes "abcd")) (.ok (bytes "1234567"))
      (.ok (bytes "OK")) (by decide) (by decide) (by decide) (by decide)).2.1⟩

/-! ## Framing -/

/-- Claim C2: for successful reads `c1..cn` of which `cn` is the first chunk
shorter than 80 bytes that ends with `OK`, the framing loop leaves with the
concatenation of the chunks minus its last 2 bytes and consumes no later read;
`ShowServers` returns that payload with a nil error, and `ListServers` parses
that same payload. -/
theorem ShowServers_framing (pre : List (List Byte)) (last : List Byte)
    (later : List ReadResult)
    (hpre : ∀ c ∈ pre, ¬ (c.length < 80 ∧ HasSuffix c (bytes "OK") = true))
    (hlen : last.length < 80) (hok : HasSuffix last (bytes "OK") = true) :
    ShowServers (pre.map ReadResult.ok ++ ReadResult.ok last :: later) =
      .returned ((pre.flatten ++ last).take ((pre.flatten ++ last).length - 2)) none
        [bytes "show serversjson"] later ∧
    ListServers (pre.map ReadResult.ok ++ ReadResult.ok last :: later) =
      .returned (parseServerList ((pre.flatten ++ last).take ((pre.flatten ++ last).length - 2)))
        none [bytes "list servers"] later := by
  simp only [ShowServers, ListServers, frameLoop_framing pre last later hpre hlen hok, Command,
    List.nil_append, and_self]

/-- The chunks `abc`, `defOK` frame to `abcdef`; the read after them stays
unconsumed. -/
theorem ShowServers_framing_witness :
    (∀ c ∈ [bytes "abc"], ¬ (c.length < 80 ∧ HasSuffix c (bytes "OK") = true)) ∧
    (bytes "defOK").length < 80 ∧ HasSuffix (bytes "defOK") (bytes "OK") = true ∧
    ShowServers [.ok (bytes "abc"), .ok (bytes "defOK"), .ok (bytes "later")] =
      .returned (bytes "abcdef") none [bytes "show serversjson"] [.ok (bytes "later")] :=
  ⟨by decide, by decide, by decide,
    (ShowServers_framing [bytes "abc"] (bytes "defOK") [.ok (bytes "later")]
      (by decide) (by decide) (by decide)).1⟩

/-- Claim C6, at the input where it fails: the first read of the loop returns
an error and the second delivers `abOK`; `ShowServers` and `ListServers` do not
abort at the failed read, they read on and return with a nil error. -/
theorem ShowServers_swallows_read_error :
    ShowServers [ReadResult.fail, .ok (bytes "abOK")] =
      .returned (bytes "ab") none [bytes "show serversjson"] [] ∧
    ListServers [ReadResult.fail, .ok (bytes "abOK")] =
      .returned [] none [bytes "list servers"] [] := by
  decide

/-! ## Monitor -/

/-- Claim C7, where it fails: whatever `json.Unmarshal` does with the body
(in particular when it returns an error), `GetMaxInfoServers` returns a nil
error, and the snapshot afterwards is whatever `json.Unmarshal` left in
`ServerMaxinfos`. -/
theorem GetMaxInfoServers_error_nil
    (unmarshal : List Byte → List ServerMaxinfo → List ServerMaxinfo × GoError)
    (monjson : List Byte) (S : List ServerMaxinfo) :
    GetMaxInfoServers unmarshal (.body monjson) S =
      .returned (unmarshal monjson S).1 none (unmarshal monjson S).1 := by
  rfl

/-- Claim C8: `GetMaxInfoServer(ip, port)` returns (Server, Status,
Connections) of the first record of the snapshot whose Address equals `ip` and
whose Port equals `port`, and the empty sentinel ("", "", 0) when no record
matches both. -/
theorem GetMaxInfoServer_first_match (snapshot : List ServerMaxinfo) (ip : GoString)
    (port : Int) :
    (∀ pre s post, snapshot = pre ++ s :: post →
      (∀ x ∈ pre, ¬ (x.Address = ip ∧ x.Port = port)) →
      s.Address = ip → s.Port = port →
      GetMaxInfoServer snapshot ip port = (s.Server, s.Status, s.Connections)) ∧
    ((∀ x ∈ snapshot, ¬ (x.Address = ip ∧ x.Port = port)) →
      GetMaxInfoServer snapshot ip port = (bytes "", bytes "", 0)) := by
  constructor
  · intro pre s post hsnap hpre ha hp
    subst hsnap
    induction pre with
    | nil => simp [GetMaxInfoServer, ha, hp]
    | cons x xs ih =>
      have hx := hpre x (List.mem_cons_self _ _)
      rw [List.cons_append, GetMaxInfoServer, if_neg hx]
      exact ih (fun y hy => hpre y (List.mem_cons_of_mem _ hy))
  · intro hnone
    induction snapshot with
    | nil => rfl
    | cons x xs ih =>
      have hx := hnone x (List.mem_cons_self _ _)
      rw [GetMaxInfoServer, if_neg hx]
      exact ih (fun y hy => hnone y (List.mem_cons_of_mem _ hy))

/-- The snapshot with the single record n1: the matching pair gives its fields,
another port gives the empty sentinel. -/
theorem GetMaxInfoServer_first_match_witness :
    GetMaxInfoServer
        [{ Server := bytes "n1", Address := bytes "10.0.0.2", Port := 3306,
           Connections := 5, Status := bytes "Running" }]
        (bytes "10.0.0.2") 3306 = (bytes "n1", bytes "Running", 5) ∧
    GetMaxInfoServer
        [{ Server := bytes "n1", Address := bytes "10.0.0.2", Port := 3306,
           Connections := 5, Status := bytes "Running" }]
        (bytes "10.0.0.2") 3307 = (bytes "", bytes "", 0) :=
  ⟨(GetMaxInfoServer_first_match
      [{ Server := bytes "n1", Address := bytes "10.0.0.2", Port := 3306,
         Connections := 5, Status := bytes "Running" }] (bytes "10.0.0.2") 3306).1
      [] { Server := bytes "n1", Address := bytes "10.0.0.2", Port := 3306,
           Connections := 5, Status := bytes "Running" } [] rfl
      (by simp) rfl rfl,
   (GetMaxInfoServer_first_match
      [{ Server := bytes "n1", Address := bytes "10.0.0.2", Port := 3306,
         Connections := 5, Status := bytes "Running" }] (bytes "10.0.0.2") 3307).2
      (by decide)⟩

/-! ## Table parsing -/

theorem splitLines_ne_nil (p : GoString) : splitLines p ≠ [] := by
  cases p with
  | nil => simp [splitLines]
  | cons c cs =>
    rw [splitLines]
    split
    · simp
    · split <;> simp

theorem splitLines_append (p1 p2 : GoString) :
    splitLines (p1 ++ 10 :: p2) = splitLines p1 ++ splitLines p2 := by
  induction p1 with
  | nil => simp [splitLines]
  | cons c cs ih =>
    rw [List.cons_append, splitLines, splitLines, ih]
    by_cases hc : c = 10
    · simp [hc]
    · simp only [if_neg hc]
      cases hs : splitLines cs with
      | nil => exact absurd hs (splitLines_ne_nil cs)
      | cons l ls => simp

theorem lineStep_append (sl : ServerList) (line : GoString) :
    lineStep sl line = sl ++ lineStep [] line := by
  unfold lineStep
  simp only []
  split
  · split
    · split <;> simp
    · simp
  · simp

theorem foldl_lineStep (lines : List GoString) (sl : ServerList) :
    lines.foldl lineStep sl = sl ++ lines.flatMap (lineStep []) := by
  induction lines generalizing sl with
  | nil => simp
  | cons l ls ih =>
    rw [List.foldl_cons, ih, lineStep_append sl l]
    simp [List.flatMap_cons, List.append_assoc]

theorem lineStep_length_le_one (line : GoString) : (lineStep [] line).length ≤ 1 := by
  unfold lineStep
  simp only []
  split
  · split
    · split <;> simp
    · simp
  · simp

/-- Claim C9: the table scrape is line-wise and order-preserving: the result
is the in-order concatenation of what each line contributes, a line
contributes at most one record and a line the pattern does not match
contributes none, so the parse of `p1 ++ "\n" ++ p2` is the parse of `p1`
followed by the parse of `p2`; and whenever `ListServers` returns, the
returned error is nil. -/
theorem parseServerList_linewise (p1 p2 line : GoString) (reads : List ReadResult) :
    parseServerList (p1 ++ bytes "\n" ++ p2) = parseServerList p1 ++ parseServerList p2 ∧
    parseServerList p1 = (splitLines p1).flatMap (lineStep []) ∧
    (lineStep [] line).length ≤ 1 ∧
    (FindStringSubmatch re line = [] → ∀ sl, lineStep sl line = sl) ∧
    (∀ sl err writes rest, ListServers reads = .returned sl err writes rest → err = none) := by
  have hnl : bytes "\n" = [10] := by decide
  refine ⟨?_, ?_, lineStep_length_le_one line, ?_, ?_⟩
  · rw [hnl, List.append_assoc, List.singleton_append, parseServerList, parseServerList,
      parseServerList]
    simp only [splitLines_append, foldl_lineStep, List.nil_append, List.flatMap_append]
  · simp only [parseServerList, foldl_lineStep, List.nil_append]
  · intro h sl
    simp [lineStep, h]
  · intro sl err writes rest h
    unfold ListServers at h
    simp only [] at h
    split at h
    · injection h with _ h2 _ _
      exact h2.symm
    · exact absurd h (by simp)
    · exact absurd h (by simp)

/-- Two rows joined by a newline, a line the pattern does not match, and a
one-chunk run of `ListServers`. -/
theorem parseServerList_linewise_witness :
    FindStringSubmatch re (bytes "no table here") = [] ∧
    parseServerList (bytes "n1 | a1 | up" ++ bytes "\n" ++ bytes "n2 | a2 | up") =
      parseServerList (bytes "n1 | a1 | up") ++ parseServerList (bytes "n2 | a2 | up") ∧
    lineStep [⟨bytes "n1", bytes "a1"⟩] (bytes "no table here") = [⟨bytes "n1", bytes "a1"⟩] ∧
    (∀ sl err writes rest, ListServers [.ok (bytes "n1 | a1 | upOK")] =
      .returned sl err writes rest → err = none) :=
  ⟨by decide,
   (parseServerList_linewise (bytes "n1 | a1 | up") (bytes "n2 | a2 | up")
      (bytes "no table here") [.ok (bytes "n1 | a1 | upOK")]).1,
   (parseServerList_linewise (bytes "n1 | a1 | up") (bytes "n2 | a2 | up")
      (bytes "no table here") [.ok (bytes "n1 | a1 | upOK")]).2.2.2.1 (by decide) _,
   (parseServerList_linewise (bytes "n1 | a1 | up") (bytes "n2 | a2 | up")
      (bytes "no table here") [.ok (bytes "n1 | a1 | upOK")]).2.2.2.2⟩

/-! ## The line pattern on a well-formed row -/

theorem isAlnum_of_isSpace (b : Nat) (h : isSpace b = true) : isAlnum b = false := by
  unfold isSpace at h
  unfold isAlnum
  simp only [Bool.or_eq_true, Bool.and_eq_true, decide_eq_true_eq, beq_iff_eq] at h
  rcases h with ⟨h9, h13⟩ | h32
  · have h13n : @LE.le Nat _ b 13 := h13
    have a1 : ¬ (@LE.le Byte _ 48 b) := fun h => by
      have hn : @LE.le Nat _ 48 b := h
      omega
    have a2 : ¬ (@LE.le Byte _ 65 b) := fun h => by
      have hn : @LE.le Nat _ 65 b := h
      omega
    have a3 : ¬ (@LE.le Byte _ 97 b) := fun h => by
      have hn : @LE.le Nat _ 97 b := h
      omega
    simp [a1, a2, a3]
  · subst h32
    decide

theorem isSpace_of_isAlnum (b : Byte) (h : isAlnum b = true) : isSpace b = false := by
  rcases Bool.eq_false_or_eq_true (isSpace b) with hs | hs
  · rw [isAlnum_of_isSpace b hs] at h
    exact absurd h (by simp)
  · exact hs

theorem length_dropWhile_le (p : Byte → Bool) (l : List Byte) :
    (l.dropWhile p).length ≤ l.length := by
  induction l with
  | nil => simp
  | cons c cs ih =>
    rw [List.dropWhile_cons]
    split
    · simp only [List.length_cons]; omega
    · exact le_refl _

theorem starLoop_total {α : Type} (cls : Byte → Bool) (f : List Byte → α) (inp : List Byte) :
    starLoop cls (fun rest => some (f rest)) inp = some (f (inp.dropWhile cls)) := by
  induction inp with
  | nil => rfl
  | cons c cs ih =>
    rw [starLoop, List.dropWhile_cons]
    by_cases hc : cls c = true
    · simp only [hc, if_true, ih]
    · simp only [hc, if_false]
      simp

theorem starLoop_run {α : Type} (cls : Byte → Bool) (k : List Byte → Option α)
    (ws tail : List Byte) (r : α) (hws : ∀ x ∈ ws, cls x = true)
    (hhead : ∀ c ∈ tail.head?, cls c = false) (hk : k tail = some r) :
    starLoop cls k (ws ++ tail) = some r := by
  induction ws with
  | nil =>
    cases tail with
    | nil => simpa [starLoop] using hk
    | cons c t =>
      have hc : cls c = false := hhead c (by simp)
      simp only [List.nil_append, starLoop, hc]
      simpa using hk
  | cons x xs ih =>
    have hx : cls x = true := hws x (List.mem_cons_self _ _)
    rw [List.cons_append, starLoop, if_pos hx,
      ih (fun y hy => hws y (List.mem_cons_of_mem _ hy))]

theorem capLoop_run {α : Type} (cls : Byte → Bool) (k : List Byte → List Byte → Option α)
    (g tail acc : List Byte) (r : α) (hg : ∀ x ∈ g, cls x = true)
    (hhead : ∀ c ∈ tail.head?, cls c = false) (hk : k (acc ++ g) tail = some r) :
    capLoop cls k acc (g ++ tail) = some r := by
  induction g generalizing acc with
  | nil =>
    rw [List.append_nil] at hk
    cases tail with
    | nil => simpa [capLoop] using hk
    | cons c t =>
      have hc : cls c = false := hhead c (by simp)
      simp only [List.nil_append, capLoop, hc]
      simpa using hk
  | cons x xs ih =>
    have hx : cls x = true := hg x (List.mem_cons_self _ _)
    rw [List.cons_append, capLoop, if_pos hx,
      ih (acc ++ [x]) (fun y hy => hg y (List.mem_cons_of_mem _ hy)) (by simpa using hk)]

theorem matchAtoms_lit (b : Byte) (as : List Atom) (caps : List (List Byte))
    (cs : List Byte) :
    matchAtoms (.lit b :: as) caps (b :: cs) = matchAtoms as caps cs := by
  simp [matchAtoms]

theorem matchAtoms_star_run (cls : Byte → Bool) (as : List Atom) (caps : List (List Byte))
    (ws tail : List Byte) (r : List (List Byte) × List Byte)
    (hws : ∀ x ∈ ws, cls x = true) (hhead : ∀ c ∈ tail.head?, cls c = false)
    (hk : matchAtoms as caps tail = some r) :
    matchAtoms (.star cls :: as) caps (ws ++ tail) = some r := by
  rw [matchAtoms]
  exact starLoop_run cls _ ws tail r hws hhead hk

theorem matchAtoms_plusCap_run (cls : Byte → Bool) (as : List Atom)
    (caps : List (List Byte)) (g tail : List Byte) (r : List (List Byte) × List Byte)
    (hne : g ≠ []) (hg : ∀ x ∈ g, cls x = true) (hhead : ∀ c ∈ tail.head?, cls c = false)
    (hk : matchAtoms as (caps ++ [g]) tail = some r) :
    matchAtoms (.plusCap cls :: as) caps (g ++ tail) = some r := by
  cases g with
  | nil => exact absurd rfl hne
  | cons x xs =>
    have hx : cls x = true := hg x (List.mem_cons_self _ _)
    rw [List.cons_append, matchAtoms, if_pos hx]
    exact capLoop_run cls _ xs tail [x] r (fun y hy => hg y (List.mem_cons_of_mem _ hy))
      hhead (by simpa using hk)

theorem head_space_bar (ws tail : List Byte) (hws : ∀ x ∈ ws, isSpace x = true) :
    ∀ c ∈ (ws ++ 124 :: tail).head?, isAlnum c = false := by
  intro c hc
  cases ws with
  | nil =>
    simp only [List.nil_append, List.head?_cons, Option.mem_def, Option.some.injEq] at hc
    subst hc
    decide
  | cons x xs =>
    simp only [List.cons_append, List.head?_cons, Option.mem_def, Option.some.injEq] at hc
    subst hc
    exact isAlnum_of_isSpace _ (hws _ (List.mem_cons_self _ _))

theorem head_bar (tail : List Byte) : ∀ c ∈ (124 :: tail).head?, isSpace c = false := by
  intro c hc
  simp only [List.head?_cons, Option.mem_def, Option.some.injEq] at hc
  subst hc
  decide

theorem head_alnum (g tail : List Byte) (hne : g ≠ []) (hg : ∀ x ∈ g, isAlnum x = true) :
    ∀ c ∈ (g ++ tail).head?, isSpace c = false := by
  intro c hc
  cases g with
  | nil => exact absurd rfl hne
  | cons x xs =>
    simp only [List.cons_append, List.head?_cons, Option.mem_def, Option.some.injEq] at hc
    subst hc
    exact isSpace_of_isAlnum _ (hg _ (List.mem_cons_self _ _))

/-- The pattern on a row `N ws | ws A ws | tail`: it matches, the groups are
`N` and `A`, and the match ends after the whitespace that starts `tail`. -/
theorem matchAtoms_re_row (N ws1 ws2 A ws3 tail : List Byte)
    (hN : N ≠ []) (hNa : ∀ x ∈ N, isAlnum x = true)
    (hA : A ≠ []) (hAa : ∀ x ∈ A, isAlnum x = true)
    (h1 : ∀ x ∈ ws1, isSpace x = true) (h2 : ∀ x ∈ ws2, isSpace x = true)
    (h3 : ∀ x ∈ ws3, isSpace x = true) :
    matchAtoms re [] (N ++ (ws1 ++ 124 :: (ws2 ++ (A ++ (ws3 ++ 124 :: tail))))) =
      some ([N, A], tail.dropWhile isSpace) := by
  unfold re
  apply matchAtoms_plusCap_run _ _ _ _ _ _ hN hNa (head_space_bar _ _ h1)
  apply matchAtoms_star_run _ _ _ _ _ _ h1 (head_bar _)
  rw [matchAtoms_lit]
  apply matchAtoms_star_run _ _ _ _ _ _ h2 (head_alnum _ _ hA hAa)
  apply matchAtoms_plusCap_run _ _ _ _ _ _ hA hAa (head_space_bar _ _ h3)
  apply matchAtoms_star_run _ _ _ _ _ _ h3 (head_bar _)
  rw [matchAtoms_lit, matchAtoms]
  simp only [matchAtoms]
  exact starLoop_total isSpace (fun rest => (([] ++ [N]) ++ [A], rest)) tail

theorem lineStep_row (sl : ServerList) (N ws1 ws2 A ws3 tail : List Byte)
    (hN : N ≠ []) (hNa : ∀ x ∈ N, isAlnum x = true)
    (hA : A ≠ []) (hAa : ∀ x ∈ A, isAlnum x = true)
    (h1 : ∀ x ∈ ws1, isSpace x = true) (h2 : ∀ x ∈ ws2, isSpace x = true)
    (h3 : ∀ x ∈ ws3, isSpace x = true) (hS : N ≠ bytes "Server") :
    lineStep sl (N ++ (ws1 ++ 124 :: (ws2 ++ (A ++ (ws3 ++ 124 :: tail))))) =
      sl ++ [{ Server := N, Address := A }] := by
  have hm := matchAtoms_re_row N ws1 ws2 A ws3 tail hN hNa hA hAa h1 h2 h3
  have hd := length_dropWhile_le isSpace tail
  have hNl : 0 < N.length := List.length_pos.mpr hN
  have hb : bytes "" = [] := rfl
  unfold lineStep FindStringSubmatch
  rw [hm]
  simp only [List.length_cons, gt_iff_lt, Nat.zero_lt_succ, if_true, hb]
  rw [if_pos]
  refine ⟨?_, hS⟩
  intro h0
  have hl := congrArg List.length h0
  simp only [List.length_take, List.length_append, List.length_cons, List.length_nil] at hl
  omega

theorem splitLines_no_newline (line : GoString) (h : ∀ x ∈ line, x ≠ 10) :
    splitLines line = [line] := by
  induction line with
  | nil => rfl
  | cons c cs ih =>
    have hc : c ≠ 10 := h c (List.mem_cons_self _ _)
    rw [splitLines, if_neg hc, ih (fun y hy => h y (List.mem_cons_of_mem _ hy))]

/-- Claim C3, as stated, fails: the payload of the claim does not parse to
the record {node1, 10.0.0.1}. -/
theorem parseServerList_dotted_address_counterexample :
    parseServerList (bytes "Server | Address | Other\nnode1 | 10.0.0.1 | up\n") ≠
      [{ Server := bytes "node1", Address := bytes "10.0.0.1" }] := by
  decide

/-- Claim C3, amended: the header row is excluded and a data row gives one
record when its name and address are alphanumeric tokens. The payload of the
claim parses to the empty list, its data row being skipped because the address
`10.0.0.1` contains dots; the same table with the address `host1` parses to
exactly the one-element list [{node1, host1}], also through `ListServers`. -/
theorem parseServerList_header_excluded :
    parseServerList (bytes "Server | Address | Other\nnode1 | 10.0.0.1 | up\n") = [] ∧
    parseServerList (bytes "Server | Address | Other\nnode1 | host1 | up\n") =
      [{ Server := bytes "node1", Address := bytes "host1" }] ∧
    ListServers [.ok (bytes "Server | Address | Other\nnode1 | host1 | up\nOK")] =
      .returned [{ Server := bytes "node1", Address := bytes "host1" }] none
        [bytes "list servers"] [] := by
  decide

/-- Claim C10, as stated, fails: a row with one leading space, otherwise of
the claimed shape (tokens `n1` and `a1`), yields no record. -/
theorem lineStep_leading_space_counterexample :
    (∀ x ∈ bytes " ", isSpace x = true) ∧
    (∀ x ∈ bytes "n1", isAlnum x = true) ∧ (∀ x ∈ bytes "a1", isAlnum x = true) ∧
    bytes "n1" ≠ bytes "Server" ∧
    lineStep [] (bytes " " ++ bytes "n1" ++ bytes " " ++ bytes "|" ++ bytes " " ++ bytes "a1"
      ++ bytes " " ++ bytes "|" ++ bytes " " ++ bytes "up") = [] ∧
    parseServerList (bytes " n1 | a1 | up") = [] := by
  decide

/-- Claim C10, amended: for every line that starts, without leading
whitespace, with a non-empty alphanumeric token `N`, followed by whitespace
(zero or more), `|`, whitespace, a non-empty alphanumeric token `A`,
whitespace, `|`, whitespace and any text, with `N` different from `Server`,
the loop body of `ListServers` appends exactly the record {N, A}; a payload
made of that line alone parses to the one-element list [{N, A}]. -/
theorem lineStep_table_row (sl : ServerList) (N ws1 ws2 A ws3 ws4 text : List Byte)
    (hN : N ≠ []) (hNa : ∀ x ∈ N, isAlnum x = true)
    (hA : A ≠ []) (hAa : ∀ x ∈ A, isAlnum x = true)
    (h1 : ∀ x ∈ ws1, isSpace x = true) (h2 : ∀ x ∈ ws2, isSpace x = true)
    (h3 : ∀ x ∈ ws3, isSpace x = true) (_h4 : ∀ x ∈ ws4, isSpace x = true)
    (hS : N ≠ bytes "Server") :
    lineStep sl (N ++ ws1 ++ bytes "|" ++ ws2 ++ A ++ ws3 ++ bytes "|" ++ ws4 ++ text) =
      sl ++ [{ Server := N, Address := A }] ∧
    ((∀ x ∈ N ++ ws1 ++ bytes "|" ++ ws2 ++ A ++ ws3 ++ bytes "|" ++ ws4 ++ text, x ≠ 10) →
      parseServerList (N ++ ws1 ++ bytes "|" ++ ws2 ++ A ++ ws3 ++ bytes "|" ++ ws4 ++ text) =
        [{ Server := N, Address := A }]) := by
  have hbar : bytes "|" = [124] := by decide
  have hline : N ++ ws1 ++ bytes "|" ++ ws2 ++ A ++ ws3 ++ bytes "|" ++ ws4 ++ text =
      N ++ (ws1 ++ 124 :: (ws2 ++ (A ++ (ws3 ++ 124 :: (ws4 ++ text))))) := by
    rw [hbar]
    simp only [List.append_assoc, List.singleton_append, List.cons_append, List.nil_append]
  have hrow := fun sl0 => lineStep_row sl0 N ws1 ws2 A ws3 (ws4 ++ text) hN hNa hA hAa h1 h2 h3 hS
  constructor
  · rw [hline]
    exact hrow sl
  · intro hnl
    rw [parseServerList, splitLines_no_newline _ hnl, hline]
    simp only [List.foldl_cons, List.foldl_nil]
    simpa using hrow []

/-- The row `node1 | host1 | up` yields the record {node1, host1}. -/
theorem lineStep_table_row_witness :
    lineStep [] (bytes "node1" ++ bytes " " ++ bytes "|" ++ bytes " " ++ bytes "host1"
      ++ bytes " " ++ bytes "|" ++ bytes " " ++ bytes "up") =
      [] ++ [{ Server := bytes "node1", Address := bytes "host1" }] :=
  (lineStep_table_row [] (bytes "node1") (bytes " ") (bytes " ") (bytes "host1") (bytes " ")
    (bytes " ") (bytes "up") (by decide) (by decide) (by decide) (by decide) (by decide)
    (by decide) (by decide) (by decide) (by decide)).1

/-! ## What a match of the line pattern captures -/

theorem starLoop_some {α : Type} (cls : Byte → Bool) (k : List Byte → Option α)
    (inp : List Byte) (r : α) (h : starLoop cls k inp = some r) :
    ∃ rest, k rest = some r := by
  induction inp with
  | nil => exact ⟨[], by simpa [starLoop] using h⟩
  | cons c cs ih =>
    rw [starLoop] at h
    by_cases hc : cls c = true
    · rw [if_pos hc] at h
      cases hs : starLoop cls k cs with
      | none =>
        rw [hs] at h
        exact ⟨c :: cs, h⟩
      | some r1 =>
        rw [hs] at h
        simp only [Option.some.injEq] at h
        subst h
        exact ih hs
    · rw [if_neg hc] at h
      exact ⟨c :: cs, h⟩

theorem capLoop_some {α : Type} (cls : Byte → Bool) (k : List Byte → List Byte → Option α)
    (acc inp : List Byte) (r : α) (h : capLoop cls k acc inp = some r) :
    ∃ run rest, (∀ x ∈ run, cls x = true) ∧ k (acc ++ run) rest = some r := by
  induction inp generalizing acc with
  | nil =>
    refine ⟨[], [], by simp, ?_⟩
    simpa [capLoop] using h
  | cons c cs ih =>
    rw [capLoop] at h
    by_cases hc : cls c = true
    · rw [if_pos hc] at h
      cases hs : capLoop cls k (acc ++ [c]) cs with
      | none =>
        rw [hs] at h
        exact ⟨[], c :: cs, by simp, by simpa using h⟩
      | some r1 =>
        rw [hs] at h
        simp only [Option.some.injEq] at h
        subst h
        obtain ⟨run, rest, hrun, hk⟩ := ih (acc ++ [c]) hs
        refine ⟨c :: run, rest, ?_, by simpa using hk⟩
        intro x hx
        rcases List.mem_cons.mp hx with hx | hx
        · rw [hx]; exact hc
        · exact hrun x hx
    · rw [if_neg hc] at h
      exact ⟨[], c :: cs, by simp, by simpa using h⟩

theorem matchAtoms_star_some (cls : Byte → Bool) (as : List Atom) (caps : List (List Byte))
    (inp : List Byte) (r : List (List Byte) × List Byte)
    (h : matchAtoms (.star cls :: as) caps inp = some r) :
    ∃ rest, matchAtoms as caps rest = some r := by
  rw [matchAtoms] at h
  exact starLoop_some cls _ inp r h

theorem matchAtoms_lit_some (b : Byte) (as : List Atom) (caps : List (List Byte))
    (inp : List Byte) (r : List (List Byte) × List Byte)
    (h : matchAtoms (.lit b :: as) caps inp = some r) :
    ∃ rest, matchAtoms as caps rest = some r := by
  cases inp with
  | nil => simp [matchAtoms] at h
  | cons c cs =>
    rw [matchAtoms] at h
    by_cases hc : c = b
    · rw [if_pos hc] at h
      exact ⟨cs, h⟩
    · rw [if_neg hc] at h
      exact absurd h (by simp)

theorem matchAtoms_plusCap_some (cls : Byte → Bool) (as : List Atom)
    (caps : List (List Byte)) (inp : List Byte) (r : List (List Byte) × List Byte)
    (h : matchAtoms (.plusCap cls :: as) caps inp = some r) :
    ∃ g rest, g ≠ [] ∧ (∀ x ∈ g, cls x = true) ∧
      matchAtoms as (caps ++ [g]) rest = some r := by
  cases inp with
  | nil => simp [matchAtoms] at h
  | cons c cs =>
    rw [matchAtoms] at h
    by_cases hc : cls c = true
    · rw [if_pos hc] at h
      obtain ⟨run, rest, hrun, hk⟩ := capLoop_some cls _ [c] cs r h
      refine ⟨[c] ++ run, rest, by simp, ?_, hk⟩
      intro x hx
      rcases List.mem_append.mp hx with hx | hx
      · rw [List.mem_singleton.mp hx]; exact hc
      · exact hrun x hx
    · rw [if_neg hc] at h
      exact absurd h (by simp)

/-- Whenever the pattern matches, there are exactly two groups, each a
non-empty run of bytes of the class `[0-9A-Za-z]`. -/
theorem matchAtoms_re_groups (line : List Byte) (r : List (List Byte) × List Byte)
    (h : matchAtoms re [] line = some r) :
    ∃ N A, r.1 = [N, A] ∧ N ≠ [] ∧ (∀ x ∈ N, isAlnum x = true) ∧
      A ≠ [] ∧ (∀ x ∈ A, isAlnum x = true) := by
  unfold re at h
  obtain ⟨N, t1, hN, hNa, h⟩ := matchAtoms_plusCap_some _ _ _ _ _ h
  obtain ⟨t2, h⟩ := matchAtoms_star_some _ _ _ _ _ h
  obtain ⟨t3, h⟩ := matchAtoms_lit_some _ _ _ _ _ h
  obtain ⟨t4, h⟩ := matchAtoms_star_some _ _ _ _ _ h
  obtain ⟨A, t5, hA, hAa, h⟩ := matchAtoms_plusCap_some _ _ _ _ _ h
  obtain ⟨t6, h⟩ := matchAtoms_star_some _ _ _ _ _ h
  obtain ⟨t7, h⟩ := matchAtoms_lit_some _ _ _ _ _ h
  obtain ⟨t8, h⟩ := matchAtoms_star_some _ _ _ _ _ h
  rw [matchAtoms] at h
  simp only [Option.some.injEq] at h
  subst h
  exact ⟨N, A, by simp, hN, hNa, hA, hAa⟩

/-- What holds of a record the loop body appends. -/
theorem lineStep_mem (line : GoString) (s : Server) (h : s ∈ lineStep [] line) :
    s.Server ≠ bytes "Server" ∧ s.Server ≠ [] ∧ (∀ x ∈ s.Server, isAlnum x = true) ∧
      s.Address ≠ [] ∧ (∀ x ∈ s.Address, isAlnum x = true) := by
  unfold lineStep FindStringSubmatch at h
  cases hm : matchAtoms re [] line with
  | none =>
    rw [hm] at h
    simp at h
  | some r =>
    obtain ⟨N, A, hcaps, hN, hNa, hA, hAa⟩ := matchAtoms_re_groups line r hm
    rw [hm] at h
    obtain ⟨caps, rest⟩ := r
    simp only at hcaps
    subst hcaps
    simp only [List.length_cons, gt_iff_lt, Nat.zero_lt_succ, if_true, List.nil_append] at h
    split at h
    · rw [List.mem_singleton] at h
      subst h
      rename_i hcond
      exact ⟨hcond.2, hN, hNa, hA, hAa⟩
    · simp at h

theorem parseServerList_mem (p : GoString) (s : Server) (h : s ∈ parseServerList p) :
    s.Server ≠ bytes "Server" ∧ s.Server ≠ [] ∧ (∀ x ∈ s.Server, isAlnum x = true) ∧
      s.Address ≠ [] ∧ (∀ x ∈ s.Address, isAlnum x = true) := by
  rw [parseServerList, foldl_lineStep, List.nil_append, List.mem_flatMap] at h
  obtain ⟨line, _, hs⟩ := h
  exact lineStep_mem line s hs

theorem isAlnum_ranges (b : Nat) (h : isAlnum b = true) :
    (48 ≤ b ∧ b ≤ 57) ∨ (65 ≤ b ∧ b ≤ 90) ∨ (97 ≤ b ∧ b ≤ 122) := by
  unfold isAlnum at h
  simp only [Bool.or_eq_true, Bool.and_eq_true, decide_eq_true_eq] at h
  rcases h with (h | h) | h
  · exact Or.inl h
  · exact Or.inr (Or.inl h)
  · exact Or.inr (Or.inr h)

/-- Claim C11: every record of the table scrape, for every framed payload and
for every returning run of `ListServers`, has a Server field different from
`Server`, and its Server and Address fields are non-empty and made of ASCII
digits and letters only. -/
theorem ListServers_records (p : GoString) (reads : List ReadResult) :
    (∀ s ∈ parseServerList p,
      s.Server ≠ bytes "Server" ∧
      s.Server ≠ [] ∧
      (∀ x ∈ s.Server, (48 ≤ x ∧ x ≤ 57) ∨ (65 ≤ x ∧ x ≤ 90) ∨ (97 ≤ x ∧ x ≤ 122)) ∧
      s.Address ≠ [] ∧
      (∀ x ∈ s.Address, (48 ≤ x ∧ x ≤ 57) ∨ (65 ≤ x ∧ x ≤ 90) ∨ (97 ≤ x ∧ x ≤ 122))) ∧
    (∀ sl err writes rest, ListServers reads = .returned sl err writes rest →
      ∀ s ∈ sl,
        s.Server ≠ bytes "Server" ∧
        s.Server ≠ [] ∧
        (∀ x ∈ s.Server, (48 ≤ x ∧ x ≤ 57) ∨ (65 ≤ x ∧ x ≤ 90) ∨ (97 ≤ x ∧ x ≤ 122)) ∧
        s.Address ≠ [] ∧
        (∀ x ∈ s.Address, (48 ≤ x ∧ x ≤ 57) ∨ (65 ≤ x ∧ x ≤ 90) ∨ (97 ≤ x ∧ x ≤ 122))) := by
  have key : ∀ (q : GoString) (s : Server), s ∈ parseServerList q →
      s.Server ≠ bytes "Server" ∧
      s.Server ≠ [] ∧
      (∀ x ∈ s.Server, (48 ≤ x ∧ x ≤ 57) ∨ (65 ≤ x ∧ x ≤ 90) ∨ (97 ≤ x ∧ x ≤ 122)) ∧
      s.Address ≠ [] ∧
      (∀ x ∈ s.Address, (48 ≤ x ∧ x ≤ 57) ∨ (65 ≤ x ∧ x ≤ 90) ∨ (97 ≤ x ∧ x ≤ 122)) := by
    intro q s hs
    obtain ⟨h1, h2, h3, h4, h5⟩ := parseServerList_mem q s hs
    exact ⟨h1, h2, fun x hx => isAlnum_ranges x (h3 x hx), h4,
      fun x hx => isAlnum_ranges x (h5 x hx)⟩
  refine ⟨key p, ?_⟩
  intro sl err writes rest hret s hs
  unfold ListServers at hret
  simp only [] at hret
  split at hret
  · injection hret with hsl _ _ _
    rw [← hsl] at hs
    exact key _ s hs
  · exact absurd hret (by simp)
  · exact absurd hret (by simp)

/-- The table with a header and the row `node1 | host1 | up`: its one record
is not the header and both fields are alphanumeric. -/
theorem ListServers_records_witness :
    ({ Server := bytes "node1", Address := bytes "host1" } : Server) ∈
      parseServerList (bytes "Server | Address | Other\nnode1 | host1 | up\n") ∧
    bytes "node1" ≠ bytes "Server" ∧ bytes "node1" ≠ [] ∧ bytes "host1" ≠ [] :=
  ⟨by decide,
   ((ListServers_records (bytes "Server | Address | Other\nnode1 | host1 | up\n") []).1
      { Server := bytes "node1", Address := bytes "host1" } (by decide)).1,
   ((ListServers_records (bytes "Server | Address | Other\nnode1 | host1 | up\n") []).1
      { Server := bytes "node1", Address := bytes "host1" } (by decide)).2.1,
   ((ListServers_records (bytes "Server | Address | Other\nnode1 | host1 | up\n") []).1
      { Server := bytes "node1", Address := bytes "host1" } (by decide)).2.2.2.1⟩

/-! ## Lookup in a table -/

/-- Claim C12: `GetServer(ip)` returns the Server name of the first record of
the list whose Address equals `ip`, whatever its other fields, and the empty
string when no record has that address. -/
theorem GetServer_first_match (sl : ServerList) (ip : GoString) :
    (∀ pre s post, sl = pre ++ s :: post → (∀ x ∈ pre, x.Address ≠ ip) → s.Address = ip →
      GetServer sl ip = s.Server) ∧
    ((∀ x ∈ sl, x.Address ≠ ip) → GetServer sl ip = bytes "") := by
  constructor
  · intro pre s post hsl hpre ha
    subst hsl
    induction pre with
    | nil => simp [GetServer, ha]
    | cons x xs ih =>
      have hx := hpre x (List.mem_cons_self _ _)
      rw [List.cons_append, GetServer, if_neg hx]
      exact ih (fun y hy => hpre y (List.mem_cons_of_mem _ hy))
  · intro hnone
    induction sl with
    | nil => rfl
    | cons x xs ih =>
      have hx := hnone x (List.mem_cons_self _ _)
      rw [GetServer, if_neg hx]
      exact ih (fun y hy => hnone y (List.mem_cons_of_mem _ hy))

/-- Two records share the address `a2`: the first of them is returned; an
address that no record has gives the empty string. -/
theorem GetServer_first_match_witness :
    GetServer [⟨bytes "n1", bytes "a1"⟩, ⟨bytes "n2", bytes "a2"⟩, ⟨bytes "n3", bytes "a2"⟩]
      (bytes "a2") = bytes "n2" ∧
    GetServer [⟨bytes "n1", bytes "a1"⟩, ⟨bytes "n2", bytes "a2"⟩, ⟨bytes "n3", bytes "a2"⟩]
      (bytes "a9") = bytes "" :=
  ⟨(GetServer_first_match
      [⟨bytes "n1", bytes "a1"⟩, ⟨bytes "n2", bytes "a2"⟩, ⟨bytes "n3", bytes "a2"⟩]
      (bytes "a2")).1 [⟨bytes "n1", bytes "a1"⟩] ⟨bytes "n2", bytes "a2"⟩
      [⟨bytes "n3", bytes "a2"⟩] rfl (by decide) rfl,
   (GetServer_first_match
      [⟨bytes "n1", bytes "a1"⟩, ⟨bytes "n2", bytes "a2"⟩, ⟨bytes "n3", bytes "a2"⟩]
      (bytes "a9")).2 (by decide)⟩

theorem GetServer_eq_nil_iff (sl : ServerList) (ip : GoString)
    (hne : ∀ s ∈ sl, s.Server ≠ []) :
    GetServer sl ip = [] ↔ ∀ s ∈ sl, s.Address ≠ ip := by
  induction sl with
  | nil => simp [GetServer, bytes]
  | cons x xs ih =>
    have hx := hne x (List.mem_cons_self _ _)
    have ih1 := ih (fun y hy => hne y (List.mem_cons_of_mem _ hy))
    rw [GetServer]
    by_cases ha : x.Address = ip
    · rw [if_pos ha]
      constructor
      · intro h
        exact absurd h hx
      · intro h
        exact absurd ha (h x (List.mem_cons_self _ _))
    · rw [if_neg ha, ih1]
      constructor
      · intro h s hs
        rcases List.mem_cons.mp hs with hs | hs
        · rw [hs]; exact ha
        · exact h s hs
      · intro h s hs
        exact h s (List.mem_cons_of_mem _ hs)

/-- Claim C18: on the list parsed from any framed payload, `GetServer`
returns the empty string if and only if no record of the list has the
address. -/
theorem GetServer_parsed_not_found_iff (p ip : GoString) :
    GetServer (parseServerList p) ip = bytes "" ↔
      ∀ s ∈ parseServerList p, s.Address ≠ ip := by
  have hb : bytes "" = [] := rfl
  rw [hb]
  exact GetServer_eq_nil_iff _ ip (fun s hs => (parseServerList_mem p s hs).2.1)

/-! ## The connection after a failed handshake -/

/-- Claim C13, as stated, fails: a 5-byte greeting makes `Connect` fail with
the negotiation error, and the connection has not been closed. -/
theorem Connect_failure_not_closed_counterexample :
    (Connect demoSession true (.ok (bytes "hello")) (.ok (bytes "12345678"))
        (.ok (bytes "OK"))).err = some ErrorNegotiation ∧
    (Connect demoSession true (.ok (bytes "hello")) (.ok (bytes "12345678"))
        (.ok (bytes "OK"))).closed = false := by
  decide

/-- Claim C13, amended: when the dial succeeds and the handshake then fails (a
read error, a greeting whose length is not 4, a user-ack whose length is not
8), `Connect` returns a non-nil error and leaves the connection open: no path
of `Connect` closes it. -/
theorem Connect_failure_leaves_open (m : MaxScale) (r1 r2 r3 : ReadResult)
    (hfail : r1.err = true ∨ r1.data.length ≠ 4 ∨ r2.err = true ∨ r2.data.length ≠ 8 ∨
      r3.err = true) :
    (Connect m true r1 r2 r3).err ≠ none ∧
    (Connect m true r1 r2 r3).closed = false ∧
    (∀ dial, (Connect m dial r1 r2 r3).closed = false) := by
  have hclosed : ∀ dial, (Connect m dial r1 r2 r3).closed = false := by
    intro dial
    unfold Connect
    simp only []
    repeat' split
    all_goals rfl
  refine ⟨?_, hclosed true, hclosed⟩
  unfold Connect
  simp only [Bool.not_true, Bool.false_eq_true, if_false]
  by_cases h1 : r1.err = true
  · simp [h1]
  · by_cases h4 : (r1.data.length : Int) = 4
    · by_cases h2 : r2.err = true
      · simp [h1, h4, h2]
      · by_cases h8 : (r2.data.length : Int) = 8
        · have h3 : r3.err = true := by
            rcases hfail with h | h | h | h | h
            · exact absurd h h1
            · exact absurd (by omega) h
            · exact absurd h h2
            · exact absurd (by omega) h
            · exact h
          simp [h1, h4, h2, h8, h3]
        · simp [h1, h4, h2, h8]
    · simp [h1, h4]

/-- A failed second read: the reader error is returned, the connection stays
open. -/
theorem Connect_failure_leaves_open_witness :
    (Connect demoSession true (.ok (bytes "abcd")) ReadResult.fail (.ok (bytes "OK"))).err
      ≠ none ∧
    (Connect demoSession true (.ok (bytes "abcd")) ReadResult.fail (.ok (bytes "OK"))).closed
      = false :=
  ⟨(Connect_failure_leaves_open demoSession (.ok (bytes "abcd")) ReadResult.fail
      (.ok (bytes "OK")) (by decide)).1,
   (Connect_failure_leaves_open demoSession (.ok (bytes "abcd")) ReadResult.fail
      (.ok (bytes "OK")) (by decide)).2.1⟩

/-! ## Monitor fetch on a body that decodes -/

theorem setField_Server (t u : ServerMaxinfo) (f : FieldValue)
    (h : t.Server = u.Server ∨ ∃ v, f = .server v) :
    (setField t f).Server = (setField u f).Server := by
  cases f <;> simp_all [setField]

theorem setField_Address (t u : ServerMaxinfo) (f : FieldValue)
    (h : t.Address = u.Address ∨ ∃ v, f = .address v) :
    (setField t f).Address = (setField u f).Address := by
  cases f <;> simp_all [setField]

theorem setField_Port (t u : ServerMaxinfo) (f : FieldValue)
    (h : t.Port = u.Port ∨ ∃ v, f = .port v) :
    (setField t f).Port = (setField u f).Port := by
  cases f <;> simp_all [setField]

theorem setField_Connections (t u : ServerMaxinfo) (f : FieldValue)
    (h : t.Connections = u.Connections ∨ ∃ v, f = .connections v) :
    (setField t f).Connections = (setField u f).Connections := by
  cases f <;> simp_all [setField]

theorem setField_Status (t u : ServerMaxinfo) (f : FieldValue)
    (h : t.Status = u.Status ∨ ∃ v, f = .status v) :
    (setField t f).Status = (setField u f).Status := by
  cases f <;> simp_all [setField]

theorem decodeObject_Server (o : List FieldValue) (t u : ServerMaxinfo)
    (h : t.Server = u.Server ∨ ∃ v, FieldValue.server v ∈ o) :
    (decodeObject o t).Server = (decodeObject o u).Server := by
  unfold decodeObject
  induction o generalizing t u with
  | nil =>
    rcases h with h | ⟨v, hv⟩
    · exact h
    · simp at hv
  | cons f fs ih =>
    rw [List.foldl_cons, List.foldl_cons]
    apply ih
    rcases h with h | ⟨v, hv⟩
    · exact Or.inl (setField_Server t u f (Or.inl h))
    · rcases List.mem_cons.mp hv with hv | hv
      · exact Or.inl (setField_Server t u f (Or.inr ⟨v, hv.symm⟩))
      · exact Or.inr ⟨v, hv⟩

theorem decodeObject_Address (o : List FieldValue) (t u : ServerMaxinfo)
    (h : t.Address = u.Address ∨ ∃ v, FieldValue.address v ∈ o) :
    (decodeObject o t).Address = (decodeObject o u).Address := by
  unfold decodeObject
  induction o generalizing t u with
  | nil =>
    rcases h with h | ⟨v, hv⟩
    · exact h
    · simp at hv
  | cons f fs ih =>
    rw [List.foldl_cons, List.foldl_cons]
    apply ih
    rcases h with h | ⟨v, hv⟩
    · exact Or.inl (setField_Address t u f (Or.inl h))
    · rcases List.mem_cons.mp hv with hv | hv
      · exact Or.inl (setField_Address t u f (Or.inr ⟨v, hv.symm⟩))
      · exact Or.inr ⟨v, hv⟩

theorem decodeObject_Port (o : List FieldValue) (t u : ServerMaxinfo)
    (h : t.Port = u.Port ∨ ∃ v, FieldValue.port v ∈ o) :
    (decodeObject o t).Port = (decodeObject o u).Port := by
  unfold decodeObject
  induction o generalizing t u with
  | nil =>
    rcases h with h | ⟨v, hv⟩
    · exact h
    · simp at hv
  | cons f fs ih =>
    rw [List.foldl_cons, List.foldl_cons]
    apply ih
    rcases h with h | ⟨v, hv⟩
    · exact Or.inl (setField_Port t u f (Or.inl h))
    · rcases List.mem_cons.mp hv with hv | hv
      · exact Or.inl (setField_Port t u f (Or.inr ⟨v, hv.symm⟩))
      · exact Or.inr ⟨v, hv⟩

theorem decodeObject_Connections (o : List FieldValue) (t u : ServerMaxinfo)
    (h : t.Connections = u.Connections ∨ ∃ v, FieldValue.connections v ∈ o) :
    (decodeObject o t).Connections = (decodeObject o u).Connections := by
  unfold decodeObject
  induction o generalizing t u with
  | nil =>
    rcases h with h | ⟨v, hv⟩
    · exact h
    · simp at hv
  | cons f fs ih =>
    rw [List.foldl_cons, List.foldl_cons]
    apply ih
    rcases h with h | ⟨v, hv⟩
    · exact Or.inl (setField_Connections t u f (Or.inl h))
    · rcases List.mem_cons.mp hv with hv | hv
      · exact Or.inl (setField_Connections t u f (Or.inr ⟨v, hv.symm⟩))
      · exact Or.inr ⟨v, hv⟩

theorem decodeObject_Status (o : List FieldValue) (t u : ServerMaxinfo)
    (h : t.Status = u.Status ∨ ∃ v, FieldValue.status v ∈ o) :
    (decodeObject o t).Status = (decodeObject o u).Status := by
  unfold decodeObject
  induction o generalizing t u with
  | nil =>
    rcases h with h | ⟨v, hv⟩
    · exact h
    · simp at hv
  | cons f fs ih =>
    rw [List.foldl_cons, List.foldl_cons]
    apply ih
    rcases h with h | ⟨v, hv⟩
    · exact Or.inl (setField_Status t u f (Or.inl h))
    · rcases List.mem_cons.mp hv with hv | hv
      · exact Or.inl (setField_Status t u f (Or.inr ⟨v, hv.symm⟩))
      · exact Or.inr ⟨v, hv⟩

theorem ServerMaxinfo_eq (a b : ServerMaxinfo) (h1 : a.Server = b.Server)
    (h2 : a.Address = b.Address) (h3 : a.Port = b.Port)
    (h4 : a.Connections = b.Connections) (h5 : a.Status = b.Status) : a = b := by
  cases a
  cases b
  simp only [ServerMaxinfo.mk.injEq]
  exact ⟨h1, h2, h3, h4, h5⟩

/-- An object with all five members decodes to the same record whatever the
entry held before. -/
theorem decodeObject_complete (o : List FieldValue) (t u : ServerMaxinfo)
    (h : (∃ v, FieldValue.server v ∈ o) ∧ (∃ v, FieldValue.address v ∈ o) ∧
      (∃ v, FieldValue.port v ∈ o) ∧ (∃ v, FieldValue.connections v ∈ o) ∧
      (∃ v, FieldValue.status v ∈ o)) :
    decodeObject o t = decodeObject o u :=
  ServerMaxinfo_eq _ _ (decodeObject_Server o t u (Or.inr h.1))
    (decodeObject_Address o t u (Or.inr h.2.1)) (decodeObject_Port o t u (Or.inr h.2.2.1))
    (decodeObject_Connections o t u (Or.inr h.2.2.2.1))
    (decodeObject_Status o t u (Or.inr h.2.2.2.2))

theorem decodeArray_complete (doc : JsonArray) (b1 b2 : List ServerMaxinfo)
    (h : ∀ o ∈ doc, (∃ v, FieldValue.server v ∈ o) ∧ (∃ v, FieldValue.address v ∈ o) ∧
      (∃ v, FieldValue.port v ∈ o) ∧ (∃ v, FieldValue.connections v ∈ o) ∧
      (∃ v, FieldValue.status v ∈ o)) :
    decodeArray doc b1 = decodeArray doc b2 := by
  induction doc generalizing b1 b2 with
  | nil => cases b1 <;> cases b2 <;> rfl
  | cons o os ih =>
    have ho := h o (List.mem_cons_self _ _)
    have hos := fun o1 h1 => h o1 (List.mem_cons_of_mem _ h1)
    cases b1 with
    | nil =>
      cases b2 with
      | nil => rfl
      | cons t2 ts2 =>
        rw [decodeArray, decodeArray, decodeObject_complete o _ t2 ho, ih [] ts2 hos]
    | cons t1 ts1 =>
      cases b2 with
      | nil =>
        rw [decodeArray, decodeArray, decodeObject_complete o t1 zeroServerMaxinfo ho,
          ih ts1 [] hos]
      | cons t2 ts2 =>
        rw [decodeArray, decodeArray, decodeObject_complete o t1 t2 ho, ih ts1 ts2 hos]

/-- Whatever the body omits, the slice ends with one entry per element of the
array: nothing of a longer old snapshot stays behind and nothing is added to
it. -/
theorem decodeArray_length (doc : JsonArray) (backing : List ServerMaxinfo) :
    (decodeArray doc backing).length = doc.length := by
  induction doc generalizing backing with
  | nil => cases backing <;> rfl
  | cons o os ih =>
    cases backing with
    | nil => rw [decodeArray, List.length_cons, List.length_cons, ih]
    | cons t ts => rw [decodeArray, List.length_cons, List.length_cons, ih]

/-- A body the validity scan rejects (for instance a valid array followed by
other bytes): nothing is stored, the snapshot stays what it was and is returned
with a nil error. -/
theorem GetMaxInfoServers_rejected_body (scan : List Byte → Option JsonArray)
    (spare : List ServerMaxinfo) (monjson : List Byte) (S : List ServerMaxinfo)
    (hscan : scan monjson = none) :
    GetMaxInfoServers (jsonUnmarshal scan spare) (.body monjson) S = .returned S none S := by
  simp only [GetMaxInfoServers, jsonUnmarshal, hscan]

/-- Claim C14, as stated, fails: the body `[{"server":"n1"}]` decodes
successfully, yet the snapshot after the fetch depends on the prior snapshot.
Over the empty snapshot it is the record n1 with zero fields, over a snapshot
holding the record `old` it is n1 with the address, port, connections and
status of `old`. -/
theorem GetMaxInfoServers_keeps_old_fields_counterexample :
    GetMaxInfoServers (jsonUnmarshal scanDemo []) (.body bodyServerOnly) [] =
      .returned [⟨bytes "n1", [], 0, 0, []⟩] none [⟨bytes "n1", [], 0, 0, []⟩] ∧
    GetMaxInfoServers (jsonUnmarshal scanDemo []) (.body bodyServerOnly)
        [⟨bytes "old", bytes "10.0.0.9", 3306, 1, bytes "Down"⟩] =
      .returned [⟨bytes "n1", bytes "10.0.0.9", 3306, 1, bytes "Down"⟩] none
        [⟨bytes "n1", bytes "10.0.0.9", 3306, 1, bytes "Down"⟩] := by
  decide

/-- Claim C14, amended: for every prior snapshot and every body that decodes
successfully and whose records each set all five fields, after
`GetMaxInfoServers` the snapshot is the decoded list `L` (the list the body
gives over an empty slice), whatever the prior snapshot and the spare capacity
held, and the returned list is `L`; a second fetch of the same body, started
from the snapshot the first one left, again leaves `L`. -/
theorem GetMaxInfoServers_replaces_complete
    (scan : List Byte → Option JsonArray) (spare1 spare2 : List ServerMaxinfo)
    (monjson : List Byte) (doc : JsonArray) (S : List ServerMaxinfo)
    (hscan : scan monjson = some doc)
    (hfull : ∀ o ∈ doc, (∃ v, FieldValue.server v ∈ o) ∧ (∃ v, FieldValue.address v ∈ o) ∧
      (∃ v, FieldValue.port v ∈ o) ∧ (∃ v, FieldValue.connections v ∈ o) ∧
      (∃ v, FieldValue.status v ∈ o)) :
    GetMaxInfoServers (jsonUnmarshal scan spare1) (.body monjson) S =
      .returned (decodeArray doc []) none (decodeArray doc []) ∧
    GetMaxInfoServers (jsonUnmarshal scan spare2) (.body monjson) (decodeArray doc []) =
      .returned (decodeArray doc []) none (decodeArray doc []) := by
  have h : ∀ spare S0, GetMaxInfoServers (jsonUnmarshal scan spare) (.body monjson) S0 =
      .returned (decodeArray doc []) none (decodeArray doc []) := by
    intro spare S0
    simp only [GetMaxInfoServers, jsonUnmarshal, hscan,
      decodeArray_complete doc (S0 ++ spare) [] hfull]
  exact ⟨h spare1 S, h spare2 _⟩

/-- The body of the monitor example, fetched over a snapshot that held another
record and with a stale record in the spare capacity: the snapshot is the one
record n1. -/
theorem GetMaxInfoServers_replaces_complete_witness :
    scanDemo bodyComplete = some [[.server (bytes "n1"), .address (bytes "10.0.0.2"),
      .port 3306, .connections 5, .status (bytes "Running")]] ∧
    GetMaxInfoServers
      (jsonUnmarshal scanDemo [⟨bytes "stale", bytes "10.0.0.8", 1, 2, bytes "Down"⟩])
      (.body bodyComplete) [⟨bytes "old", bytes "10.0.0.9", 3306, 1, bytes "Down"⟩] =
      .returned [⟨bytes "n1", bytes "10.0.0.2", 3306, 5, bytes "Running"⟩] none
        [⟨bytes "n1", bytes "10.0.0.2", 3306, 5, bytes "Running"⟩] :=
  ⟨by decide,
   (GetMaxInfoServers_replaces_complete scanDemo
      [⟨bytes "stale", bytes "10.0.0.8", 1, 2, bytes "Down"⟩] []
      bodyComplete
      [[.server (bytes "n1"), .address (bytes "10.0.0.2"), .port 3306, .connections 5,
        .status (bytes "Running")]]
      [⟨bytes "old", bytes "10.0.0.9", 3306, 1, bytes "Down"⟩]
      (by decide)
      (by
        intro o ho
        rw [List.mem_singleton] at ho
        subst ho
        exact ⟨⟨bytes "n1", by simp⟩, ⟨bytes "10.0.0.2", by simp⟩, ⟨3306, by simp⟩,
          ⟨5, by simp⟩, ⟨bytes "Running", by simp⟩⟩)).1⟩

/-! ## The framing loop: full chunks, slice bounds, chunking -/

/-- Claim C15: when every chunk read so far has exactly 80 bytes, ending with
`OK` or not, the loop has not left after them: it is still reading and the
accumulator is the concatenation of all the chunks, nothing stripped;
`ShowServers` and `ListServers` have not returned. -/
theorem frameLoop_full_chunks (chunks : List (List Byte))
    (hfull : ∀ c ∈ chunks, c.length = 80) :
    frameLoop [] newBuf (chunks.map ReadResult.ok) = .reading chunks.flatten ∧
    ShowServers (chunks.map ReadResult.ok) =
      .pending chunks.flatten [bytes "show serversjson"] ∧
    ListServers (chunks.map ReadResult.ok) =
      .pending chunks.flatten [bytes "list servers"] := by
  have hpre : ∀ c ∈ chunks, ¬ (c.length < 80 ∧ HasSuffix c (bytes "OK") = true) := by
    intro c hc hlt
    have := hfull c hc
    omega
  obtain ⟨buf1, hb⟩ := frameLoop_chunks chunks [] newBuf [] hpre
  rw [List.append_nil, List.nil_append] at hb
  have hr : frameLoop [] newBuf (chunks.map ReadResult.ok) = .reading chunks.flatten := by
    rw [hb, frameLoop]
  simp only [ShowServers, ListServers, hr, Command, List.nil_append, and_self]

/-- Two 80-byte chunks, the second ending with `OK`: the loop is still
reading after them. -/
theorem frameLoop_full_chunks_witness :
    (∀ c ∈ [List.replicate 80 97, List.replicate 78 97 ++ bytes "OK"], c.length = 80) ∧
    HasSuffix (List.replicate 78 97 ++ bytes "OK") (bytes "OK") = true ∧
    ShowServers ([List.replicate 80 97, List.replicate 78 97 ++ bytes "OK"].map ReadResult.ok) =
      .pending ([List.replicate 80 97, List.replicate 78 97 ++ bytes "OK"].flatten)
        [bytes "show serversjson"] :=
  ⟨by decide, by decide,
   (frameLoop_full_chunks [List.replicate 80 97, List.replicate 78 97 ++ bytes "OK"]
      (by decide)).2.1⟩

theorem frameLoop_ne_panicked (response buf : List Byte) (reads : List ReadResult) :
    frameLoop response buf reads ≠ .panicked := by
  induction reads generalizing response buf with
  | nil => simp [frameLoop]
  | cons r rs ih =>
    by_cases h : r.data.length < 80 ∧ HasSuffix r.data (bytes "OK") = true
    · rw [frameLoop_break _ _ _ _ h.1 h.2]
      simp
    · rw [frameLoop_continue _ _ _ _ h]
      exact ih _ _

/-- Claim C16: with an 80-byte buffer and a read count `res` between 0 and 80,
the buffer keeps its 80 bytes, `buf[0:res]` is in range (it is the chunk
read), the terminal branch is taken only with `res >= 2` and there
`buf[0:res-2]` is in range; the loop never panics on any script of reads. -/
theorem frameLoop_slices_in_range (buf data : List Byte)
    (hbuf : buf.length = 80) (hdata : data.length ≤ 80) :
    (readInto buf data).length = 80 ∧
    slice (readInto buf data) 0 (data.length : Int) = some data ∧
    (data.length < 80 → HasSuffix data (bytes "OK") = true →
      2 ≤ data.length ∧
      slice (readInto buf data) 0 ((data.length : Int) - 2) =
        some (data.take (data.length - 2))) ∧
    (∀ response reads, frameLoop response buf reads ≠ .panicked) := by
  refine ⟨?_, slice_readInto buf data, ?_, fun response reads =>
    frameLoop_ne_panicked response buf reads⟩
  · simp only [readInto, List.length_append, List.length_drop]
    omega
  · intro _ hok
    have h2 : 2 ≤ data.length := by
      have := HasSuffix_two_le _ _ hok
      rwa [bytes_OK_length] at this
    exact ⟨h2, slice_readInto_sub_two buf data h2⟩

/-- The chunk `OK` alone (`res = 2`): the terminal branch slices `buf[0:0]`. -/
theorem frameLoop_slices_in_range_witness :
    newBuf.length = 80 ∧ (bytes "OK").length ≤ 80 ∧
    slice (readInto newBuf (bytes "OK")) 0 (((bytes "OK").length : Int) - 2) =
      some ((bytes "OK").take ((bytes "OK").length - 2)) :=
  ⟨by decide, by decide,
   ((frameLoop_slices_in_range newBuf (bytes "OK") (by decide) (by decide)).2.2.1
      (by decide) (by decide)).2⟩

/-- Claim C17: two sequences of successful reads with the same bytes, each
ending in a short chunk that ends with `OK`, are framed differently: read as
`aOK`, `bOK` the payload is `a` (the second chunk is not consumed), read as
the single chunk `aOKbOK` the payload is `aOKb`. -/
theorem frameLoop_depends_on_chunking :
    [bytes "aOK", bytes "bOK"].flatten = [bytes "aOKbOK"].flatten ∧
    ((bytes "bOK").length < 80 ∧ HasSuffix (bytes "bOK") (bytes "OK") = true) ∧
    ((bytes "aOKbOK").length < 80 ∧ HasSuffix (bytes "aOKbOK") (bytes "OK") = true) ∧
    ShowServers ([bytes "aOK", bytes "bOK"].map ReadResult.ok) =
      .returned (bytes "a") none [bytes "show serversjson"] [.ok (bytes "bOK")] ∧
    ShowServers ([bytes "aOKbOK"].map ReadResult.ok) =
      .returned (bytes "aOKb") none [bytes "show serversjson"] [] ∧
    bytes "a" ≠ bytes "aOKb" := by
  decide

end Maxscale

